import Mathlib

/-!
Verification of the metadata ingestion pipeline of `daily_arxiv.py`
(arxiv-daily). Python strings are modelled as `List Char`; Python `dict`s
(which preserve insertion order) as association lists; Python `set`s of
strings as `Finset (List Char)`. The external `json` library is modelled by
oracle parameters (`dumps`, `parse`). Fallible file writes are modelled by
an injected failure index.
-/

/-- Python `sub in s` for strings: substring containment. -/
def pyIn (sub : List Char) : List Char → Bool
  | [] => sub.isEmpty
  | c :: rest => sub.isPrefixOf (c :: rest) || pyIn sub rest

/-- Prepend a character to the first chunk of a chunk list. -/
def consHead (c : Char) : List (List Char) → List (List Char)
  | [] => [[c]]
  | x :: xs => (c :: x) :: xs

/-- Python `s.split(sep)` for a separator string: non-overlapping,
left-to-right splitting.  (The pipeline only calls it with the non-empty
separators `"/abs/"` and `"/"`.) -/
def pySplit (sep : List Char) : List Char → List (List Char)
  | [] => [[]]
  | c :: rest =>
    if sep.isPrefixOf (c :: rest) then
      [] :: pySplit sep (List.drop (sep.length - 1) rest)
    else
      consHead c (pySplit sep rest)
termination_by l => l.length
decreasing_by
  · simp only [List.length_drop, List.length_cons]
    omega
  · simp only [List.length_cons]
    omega

/-- Python `lst[-1]` on a non-empty list (the result of `split` is never
empty), with `[]` as the don't-care value on `[]`. -/
def pyLast (l : List (List Char)) : List Char := l.getLast?.getD []

/-- `arxiv_id.find('v')` followed by `arxiv_id[:ver_pos]` when found:
the trailing code of `normalize_arxiv_id` (daily_arxiv.py lines 459-462). -/
def stripVer (l : List Char) : List Char :=
  match l.findIdx? (fun c => c == 'v') with
  | some i => l.take i
  | none => l

def absPat : List Char := "/abs/".data

def domPat : List Char := "arxiv.org".data

def slashPat : List Char := "/".data

/-- `normalize_arxiv_id` (daily_arxiv.py lines 447-462): strip an `/abs/`
URL prefix (or, failing that, take the last `/`-segment when the string
mentions `arxiv.org`), then truncate at the first `v`. -/
def normalize_arxiv_id (arxiv_id : List Char) : List Char :=
  if arxiv_id = [] then []
  else
    let s1 :=
      if pyIn absPat arxiv_id then pyLast (pySplit absPat arxiv_id)
      else if pyIn domPat arxiv_id then pyLast (pySplit slashPat arxiv_id)
      else arxiv_id
    stripVer s1

/-- Python `str(n)` for a natural number: decimal digits. -/
def pyStrNat (n : Nat) : List Char :=
  if n < 10 then [Char.ofNat (48 + n)]
  else pyStrNat (n / 10) ++ [Char.ofNat (48 + n % 10)]
termination_by n
decreasing_by
  exact Nat.div_lt_self (by omega) (by omega)

/-! ## The pagination state machine (get_daily_papers) -/

/-- The per-query loop counters of `get_daily_papers`. -/
structure PageState where
  start : Nat
  empty_page_count : Nat
deriving DecidableEq, Repr

def batch_size : Nat := 100

def max_empty_pages : Nat := 3

/-- End-of-iteration bookkeeping of the fetch loop (daily_arxiv.py lines
308-318): update the consecutive-empty-page streak from the page's
`entry_count`, `break` once it reaches `max_empty_pages`, and otherwise
run `start += batch_size` (which the source places after the
`if`/`else`, so it runs for empty pages too).  The returned `Bool` is
`true` when the loop `break`s. -/
def pageStep (st : PageState) (entry_count : Nat) : PageState × Bool :=
  if entry_count = 0 then
    let e := st.empty_page_count + 1
    if e ≥ max_empty_pages then
      ({ st with empty_page_count := e }, true)
    else
      ({ start := st.start + batch_size, empty_page_count := e }, false)
  else
    ({ start := st.start + batch_size, empty_page_count := 0 }, false)

/-! ## The retry machinery (get_daily_papers, lines 152-190 and 349-359) -/

/-- Ways a single `urllib.request.urlopen` attempt can end. -/
inductive AttemptResult where
  | success (content : List Char)
  | httpError (code : Nat)
  | otherError
deriving DecidableEq, Repr

/-- Errors that can escape the inner retry loop. -/
inductive FetchErr where
  | httpError (code : Nat)
  | otherError
deriving DecidableEq, Repr

/-- Result of the inner retry loop: the content on success, or the raised
error; in both cases the number of `urlopen` calls made and the list of
back-off sleeps (in seconds) performed, in order. -/
inductive FetchOutcome where
  | ok (content : List Char) (calls : Nat) (sleeps : List Nat)
  | raised (e : FetchErr) (calls : Nat) (sleeps : List Nat)
deriving DecidableEq, Repr

def max_retries : Nat := 5

/-- The inner retry loop of `get_daily_papers` (lines 152-190).  `attempt k`
is the outcome of the `k`-th `urlopen` call; `retry_count` and `sleeps`
accumulate as in the source: a 503 bumps the counter and sleeps
`10 * retry_count` before retrying (raising instead once the counter hits
`max_retries`); any other HTTP error is re-raised at once; a non-HTTP
error bumps the counter and sleeps `5 * retry_count` (raising at the
ceiling).  The final `raised .otherError` arm is the `content is None`
guard of lines 189-190, reachable only if the loop is entered with
`retry_count ≥ max_retries`. -/
def retryFetch (attempt : Nat → AttemptResult) (k retry_count : Nat)
    (sleeps : List Nat) : FetchOutcome :=
  if retry_count < max_retries then
    match attempt k with
    | .success c => .ok c (k + 1) sleeps
    | .httpError code =>
      if code = 503 then
        if retry_count + 1 < max_retries then
          retryFetch attempt (k + 1) (retry_count + 1)
            (sleeps ++ [10 * (retry_count + 1)])
        else .raised (.httpError 503) (k + 1) sleeps
      else .raised (.httpError code) (k + 1) sleeps
    | .otherError =>
      if retry_count + 1 < max_retries then
        retryFetch attempt (k + 1) (retry_count + 1)
          (sleeps ++ [5 * (retry_count + 1)])
      else .raised .otherError (k + 1) sleeps
  else .raised .otherError k sleeps
termination_by max_retries - retry_count
decreasing_by
  · omega
  · omega

/-- What the outer per-page handlers (lines 349-359) do with the inner
loop's outcome: success proceeds to parsing; a raised 503 is caught,
slept on for 10 s and the page retried (`continue`); any other raised
HTTP error and any raised non-HTTP error `break` the fetch loop for
this query (the error is logged, the accumulated results are returned). -/
inductive OuterAction where
  | proceed (content : List Char)
  | retryPage
  | breakLoop
deriving DecidableEq, Repr

def outerHandle : FetchOutcome → OuterAction
  | .ok c _ _ => .proceed c
  | .raised (.httpError code) _ _ =>
    if code = 503 then .retryPage else .breakLoop
  | .raised .otherError _ _ => .breakLoop

/-! ## Paper records and the per-entry processing of a page (lines 200-306) -/

/-- One parsed Atom entry, as the fields the source extracts from the XML.
`none` models a missing element. -/
structure RawEntry where
  entry_id : Option (List Char)
  title : Option (List Char)
  summary : Option (List Char)
  authors : List (List Char)
  published : Option (List Char)
  updated : Option (List Char)
  categories : List (Option (List Char))
  links : List (Option (List Char))
deriving DecidableEq, Repr

/-- The metadata dictionary built at lines 285-300.  `journal_ref` stands for
the source's `journal-ref` key. -/
structure Record where
  id : List Char
  authors : List Char
  title : List Char
  comments : Option (List Char)
  journal_ref : Option (List Char)
  doi : Option (List Char)
  categories : List (List Char)
  abstract : List Char
  update_date : List Char
  authors_parsed : List (List Char × List Char × List Char)
  primary_category : Option (List Char)
  publish_time : List Char
  entry_id : List Char
  links : List (Option (List Char))
deriving DecidableEq, Repr

/-- Python `s.lower()`. -/
def pyLower (s : List Char) : List Char := s.map Char.toLower

/-- Python `s.replace(chr(10), " ")` as used on abstracts (line 267). -/
def pyReplaceNl (s : List Char) : List Char :=
  s.map (fun c => if c = '\n' then ' ' else c)

/-- Python `s.split()` with no separator: whitespace runs, no empty parts. -/
def pySplitWs (s : List Char) : List (List Char) :=
  (List.splitOnP (fun c => c.isWhitespace) s).filter (fun part => !part.isEmpty)

/-- `get_authors` (lines 47-62): join display names with a comma-space,
dropping the final separator; `"None"` for an empty author list. -/
def get_authors (authors : List (List Char)) : List Char :=
  if authors = [] then "None".data
  else
    let authors_str := authors.foldl (fun acc name => acc ++ name ++ ", ".data) []
    authors_str.take (authors_str.length - 2)

/-- The author-name splitting of lines 273-283: `(last, first, middle)` from
whitespace-separated parts, the whole name with empty first/middle when
there are fewer than two parts. -/
def parseAuthorName (name : List Char) : List Char × List Char × List Char :=
  let name_parts := pySplitWs name
  if name_parts.length ≥ 2 then
    (name_parts.getLast?.getD [], name_parts.head?.getD [],
      if name_parts.length > 2 then
        List.intercalate " ".data ((name_parts.drop 1).dropLast)
      else [])
  else (name, [], [])

/-- The search-info test of lines 203-206: a present, non-empty title whose
lower-casing contains both `title` and `result`. -/
def isMetaEntry (e : RawEntry) : Bool :=
  match e.title with
  | some t =>
    !t.isEmpty && pyIn "title".data (pyLower t) && pyIn "result".data (pyLower t)
  | none => false

/-- The inline ID derivation of lines 222-225: strip an `/abs/` prefix if
present, then truncate at the first `v`.  (Unlike `normalize_arxiv_id`
there is no `arxiv.org` fallback branch here.) -/
def fetchCanon (entry_id : List Char) : List Char :=
  let paper_id :=
    if pyIn absPat entry_id then pyLast (pySplit absPat entry_id) else entry_id
  stripVer paper_id

/-- The record construction of lines 230-300 for a non-meta entry with
present id and title elements. -/
def buildRecord (e : RawEntry) (entry_id title paper_id : List Char) : Record :=
  let cats := e.categories.filterMap (fun term =>
    match term with
    | some s => if s.isEmpty then none else some s
    | none => none)
  { id := paper_id
    authors := get_authors e.authors
    title := title
    comments := none
    journal_ref := none
    doi := none
    categories := cats
    abstract :=
      match e.summary with
      | some s => pyReplaceNl s
      | none => []
    update_date := (e.updated.getD []).take 10
    authors_parsed := e.authors.map parseAuthorName
    primary_category := cats.head?
    publish_time := (e.published.getD []).take 10
    entry_id := entry_id
    links := e.links }

/-- `full_content`, a Python dict keyed by the derived paper id; insertion
order is preserved, so it is an association list extended on the right. -/
abbrev ContentMap := List (List Char × Record)

def cmContains (m : ContentMap) (k : List Char) : Bool :=
  m.any (fun p => p.1 == k)

def cmLookup (m : ContentMap) (k : List Char) : Option Record :=
  (m.find? (fun p => p.1 == k)).map (fun p => p.2)

/-- Processing of one entry (lines 200-306): meta entries are skipped; an
entry with a missing id or title element is skipped; otherwise the paper
id is derived and, when not yet a key of `full_content`, the built record
is inserted under it (`if paper_id in full_content: continue`). -/
def processEntry (m : ContentMap) (e : RawEntry) : ContentMap :=
  if isMetaEntry e then m
  else
    match e.entry_id, e.title with
    | some eid, some t =>
      let paper_id := fetchCanon eid
      if cmContains m paper_id then m
      else m ++ [(paper_id, buildRecord e eid t paper_id)]
    | _, _ => m

def processEntries (es : List RawEntry) (m : ContentMap) : ContentMap :=
  es.foldl processEntry m

/-- `entry_count` for a page: entries surviving the meta test (the counter
at line 208 is bumped before the id/title presence test). -/
def entryCount (es : List RawEntry) : Nat :=
  es.countP (fun e => !isMetaEntry e)

/-- The canonical id an entry contributes to `full_content`, when it
contributes at all. -/
def entryCanon? (e : RawEntry) : Option (List Char) :=
  if isMetaEntry e then none
  else
    match e.entry_id, e.title with
    | some eid, some _ => some (fetchCanon eid)
    | _, _ => none

/-! ## The Incremental Writer (save_metadata_files, lines 464-534) -/

/-- The observable state of one `save_metadata_files` call: the bytes of the
current period's store file, the records appended so far (in order), the
known-ID set, and the `new_entries` counter. -/
structure SaveState where
  file : List Char
  appended : List Record
  known : Finset (List Char)
  new_entries : Nat
deriving DecidableEq

/-- The append loop of lines 494-512.  `dumps` models `json.dumps`; `failAt`
injects an I/O failure into the write of the given (0-based) new entry:
`Except.error` is the exception propagating out of the loop carrying the
state at that moment (the source re-raises at line 529).  A record is
written only when the canonical form of its own `id` field is not in the
known set, which then immediately receives that id.  (The records built
by this pipeline always carry an `id` field, so `paper_data.get('id',
paper_id)` is the record's `id`.) -/
def save_core (dumps : Record → List Char) (failAt : Option Nat) :
    List (List Char × Record) → SaveState → Except SaveState SaveState
  | [], st => .ok st
  | (_key, r) :: rest, st =>
    let clean := normalize_arxiv_id r.id
    if clean ∈ st.known then save_core dumps failAt rest st
    else if failAt = some st.new_entries then .error st
    else
      save_core dumps failAt rest
        { file := st.file ++ dumps r ++ ['\n']
          appended := st.appended ++ [r]
          known := insert clean st.known
          new_entries := st.new_entries + 1 }

/-- The pre-append newline repair of lines 486-492: a non-empty file whose
last byte is not a newline gets one, unconditionally on every call. -/
def ensureTrailingNewline (file : List Char) : List Char :=
  if file ≠ [] ∧ file.getLast? ≠ some '\n' then file ++ ['\n'] else file

def save_metadata_files (dumps : Record → List Char) (failAt : Option Nat)
    (new_dict : List (List Char × Record)) (file : List Char)
    (known : Finset (List Char)) : Except SaveState SaveState :=
  save_core dumps failAt new_dict
    { file := ensureTrailingNewline file
      appended := []
      known := known
      new_entries := 0 }

/-- What the fetch loop does after its per-batch save attempt (lines
324-347): the `except` arm only logs — both outcomes fall through and the
`while` loop continues with the next page. -/
inductive FetchControl where
  | continueLoop
  | breakLoop
  | raiseErr
deriving DecidableEq, Repr

def save_block_control (res : Except SaveState SaveState) : FetchControl :=
  match res with
  | .ok _ => .continueLoop
  | .error _ => .continueLoop

/-! ## The Existing-Store Loader (load_existing_metadata_files, lines 370-445) -/

def snapPat : List Char := "arxiv-metadata-oai-snapshot".data

def jsonExt : List Char := ".json".data

def sixDigits (l : List Char) : Bool := l.length == 6 && l.all Char.isDigit

/-- The filename test of lines 396-399, `re.search` with the pattern
`arxiv-metadata-oai-snapshot(-(6 digits))?.json` anchored at the end of
the name: `none` for no match, `some none` for a match without the dated
group, `some (some d6)` for a match with period suffix `d6`. -/
def matchStore (name : List Char) : Option (Option (List Char)) :=
  if (snapPat ++ jsonExt).isSuffixOf name then some none
  else
    let d6 := (name.drop (name.length - 11)).take 6
    if 39 ≤ name.length && sixDigits d6 &&
        (snapPat ++ '-' :: (d6 ++ jsonExt)).isSuffixOf name then
      some (some d6)
    else none

/-- Python `s.strip()`. -/
def pyStrip (s : List Char) : List Char :=
  ((s.dropWhile Char.isWhitespace).reverse.dropWhile Char.isWhitespace).reverse

/-- Python string `<=`: lexicographic by code point. -/
def pyStrLe : List Char → List Char → Bool
  | [], _ => true
  | _ :: _, [] => false
  | a :: as, b :: bs => if a = b then pyStrLe as bs else decide (a < b)

/-- Reading one store file (lines 416-437): iterate lines, strip, skip
blanks, parse (`parse` models `json.loads` plus the `'id' in data` test:
`none` is a decode error, `some none` a record without `id`, `some (some
i)` a record with id `i`), normalize and collect.  Parse failures are
skipped without aborting the scan. -/
def loadLineStep (parse : List Char → Option (Option (List Char)))
    (acc : Finset (List Char)) (line : List Char) : Finset (List Char) :=
  let line := pyStrip line
  if line = [] then acc
  else
    match parse line with
    | some (some i) => insert (normalize_arxiv_id i) acc
    | _ => acc

def loadFile (parse : List Char → Option (Option (List Char)))
    (content : List Char) : Finset (List Char) :=
  (pySplit ['\n'] content).foldl (loadLineStep parse) ∅

/-- `load_existing_metadata_files` over a directory listing (lines
394-439): process every file whose name matches the store pattern,
skipping undated files when asked to, and dated files whose 6-digit
suffix exceeds the current year-month (Python string comparison). -/
def load_existing_metadata_files (parse : List Char → Option (Option (List Char)))
    (skip_no_date_files : Bool) (current_year_month : List Char)
    (dir : List (List Char × List Char)) : Finset (List Char) :=
  dir.foldl (fun acc file =>
    match matchStore file.1 with
    | none => acc
    | some ym =>
      if skip_no_date_files && ym.isNone then acc
      else if ym.isNone || pyStrLe (ym.getD []) current_year_month then
        acc ∪ loadFile parse file.2
      else acc) ∅

/-! ## Auxiliary notions used by the claims, and concrete test data -/

/-- The string with its maximal run of trailing decimal digits removed:
`"2108.09112v1"` becomes `"2108.09112v"`.  A `v` occurring before the
trailing digits of `s` is a `v` in `dropTrailingDigits s`. -/
def dropTrailingDigits (s : List Char) : List Char :=
  (s.reverse.dropWhile Char.isDigit).reverse

/-- Append `t` to the last chunk of a chunk list (`[t]` on the empty
list, which `pySplit` never produces). -/
def appendLast (t : List Char) : List (List Char) → List (List Char)
  | [] => [t]
  | [x] => [x ++ t]
  | x :: y :: xs => x :: appendLast t (y :: xs)

/-- A minimal record with id `"1"`. -/
def recA : Record where
  id := "1".data
  authors := []
  title := []
  comments := none
  journal_ref := none
  doi := none
  categories := []
  abstract := []
  update_date := []
  authors_parsed := []
  primary_category := none
  publish_time := []
  entry_id := []
  links := []

/-- A minimal record with id `"2"`. -/
def recB : Record := { recA with id := "2".data }

/-- A concrete serialization oracle for tests. -/
def dumpsA : Record → List Char := fun r => r.id

/-- A concrete parse oracle for tests: line `A` holds id `1`, line `B`
holds id `2`, everything else is malformed. -/
def parseW : List Char → Option (Option (List Char)) := fun l =>
  if l = "A".data then some (some "1".data)
  else if l = "B".data then some (some "2".data)
  else none

/-- An attempt stream that always fails with HTTP 503. -/
def all503 : Nat → AttemptResult := fun _ => .httpError 503

/-- An attempt stream that always fails with HTTP 404. -/
def all404 : Nat → AttemptResult := fun _ => .httpError 404

/-- An attempt stream that always fails with a non-HTTP error. -/
def allOther : Nat → AttemptResult := fun _ => .otherError

/-- A concrete entry whose derived id is `7` (version suffix `v1`). -/
def entryA : RawEntry where
  entry_id := some "7v1".data
  title := some "T".data
  summary := none
  authors := []
  published := none
  updated := none
  categories := []
  links := []

/-- A second concrete entry with the same derived id `7` (suffix `v2`). -/
def entryB : RawEntry := { entryA with entry_id := some "7v2".data }

/-- The id a line contributes to the loaded set, if any: the line must
strip to something non-blank that the parse oracle accepts with an `id`. -/
def parseLineId (parse : List Char → Option (Option (List Char)))
    (line : List Char) : Option (List Char) :=
  let line := pyStrip line
  if line = [] then none
  else
    match parse line with
    | some (some i) => some i
    | _ => none

/-- The ids of the parseable records of a store file, in file order. -/
def parseableIds (parse : List Char → Option (Option (List Char)))
    (content : List Char) : List (List Char) :=
  (pySplit ['\n'] content).filterMap (parseLineId parse)

/-! ## Lemmas about the Incremental Writer -/

theorem save_core_all_known (dumps : Record → List Char) (failAt : Option Nat)
    (batch : List (List Char × Record)) (st : SaveState)
    (h : ∀ p ∈ batch, normalize_arxiv_id p.2.id ∈ st.known) :
    save_core dumps failAt batch st = .ok st := by
  induction batch with
  | nil => rfl
  | cons p rest ih =>
    obtain ⟨k, r⟩ := p
    have hr : normalize_arxiv_id r.id ∈ st.known := h (k, r) (by simp)
    simp only [save_core, if_pos hr]
    exact ih fun q hq => h q (List.mem_cons_of_mem _ hq)

theorem save_core_spec (dumps : Record → List Char) (failAt : Option Nat) :
    ∀ (batch : List (List Char × Record)) (st st' : SaveState),
    (save_core dumps failAt batch st = .ok st' ∨
      save_core dumps failAt batch st = .error st') →
    ∃ Δ : List Record,
      st'.appended = st.appended ++ Δ ∧
      st'.file = st.file ++ (Δ.map fun r => dumps r ++ ['\n']).flatten ∧
      st'.new_entries = st.new_entries + Δ.length ∧
      st'.known = st.known ∪ (Δ.map fun r => normalize_arxiv_id r.id).toFinset ∧
      (Δ.map fun r => normalize_arxiv_id r.id).Nodup ∧
      (∀ r ∈ Δ, normalize_arxiv_id r.id ∉ st.known) := by
  intro batch
  induction batch with
  | nil =>
    intro st st' h
    rcases h with h | h
    · simp only [save_core, Except.ok.injEq] at h
      subst h
      exact ⟨[], by simp, by simp, by simp, by simp, by simp, by simp⟩
    · simp only [save_core] at h
      exact absurd h (by simp)
  | cons p rest ih =>
    intro st st' h
    obtain ⟨k, r⟩ := p
    by_cases hk : normalize_arxiv_id r.id ∈ st.known
    · simp only [save_core, if_pos hk] at h
      exact ih st st' h
    · by_cases hf : failAt = some st.new_entries
      · simp only [save_core, if_neg hk, if_pos hf] at h
        rcases h with h | h
        · exact absurd h (by simp)
        · simp only [Except.error.injEq] at h
          subst h
          exact ⟨[], by simp, by simp, by simp, by simp, by simp, by simp⟩
      · simp only [save_core, if_neg hk, if_neg hf] at h
        obtain ⟨Δ₂, ha, hfile, hn, hkn, hnd, hmem⟩ := ih _ st' h
        refine ⟨r :: Δ₂, ?_, ?_, ?_, ?_, ?_, ?_⟩
        · simpa [List.append_assoc] using ha
        · simpa [List.append_assoc] using hfile
        · simp only [List.length_cons]
          simp only at hn
          omega
        · simp only [List.map_cons, List.toFinset_cons]
          simp only at hkn
          rw [hkn, Finset.insert_union, Finset.union_insert]
        · simp only [List.map_cons, List.nodup_cons]
          refine ⟨?_, hnd⟩
          intro hc
          obtain ⟨r', hr', he⟩ := List.mem_map.mp hc
          have := hmem r' hr'
          simp only at this
          exact this (he ▸ Finset.mem_insert_self _ _)
        · intro r' hr'
          rcases List.mem_cons.mp hr' with rfl | hr'
          · exact hk
          · intro hin
            exact hmem r' hr' (by simp only; exact Finset.mem_insert_of_mem hin)

theorem save_core_error_failAt (dumps : Record → List Char) (failAt : Option Nat) :
    ∀ (batch : List (List Char × Record)) (st st' : SaveState),
    save_core dumps failAt batch st = .error st' → failAt = some st'.new_entries := by
  intro batch
  induction batch with
  | nil =>
    intro st st' h
    simp only [save_core] at h
    exact absurd h (by simp)
  | cons p rest ih =>
    intro st st' h
    obtain ⟨k, r⟩ := p
    by_cases hk : normalize_arxiv_id r.id ∈ st.known
    · simp only [save_core, if_pos hk] at h
      exact ih st st' h
    · by_cases hf : failAt = some st.new_entries
      · simp only [save_core, if_neg hk, if_pos hf, Except.error.injEq] at h
        subst h
        exact hf
      · simp only [save_core, if_neg hk, if_neg hf] at h
        exact ih _ st' h

/-! ## C2 -/

/-- C2, counterexample.  The claim asserts that a batch of already-known
records leaves the store file byte-for-byte unchanged for ANY prior
content.  With prior content `"x"` (non-empty, no trailing newline) and a
batch whose only record's canonical id is already known, the appended
count is 0 as claimed but the file has become `"x\n"`: the newline repair
of lines 486-492 runs on every call, before any append decision. -/
theorem c2_counterexample :
    save_metadata_files dumpsA none [("1".data, recA)] "x".data {"1".data} =
      .ok { file := "x\n".data, appended := [], known := {"1".data},
            new_entries := 0 } ∧
    "x\n".data ≠ "x".data := by
  constructor
  · have h : ∀ p ∈ [("1".data, recA)],
        normalize_arxiv_id p.2.id ∈ ({"1".data} : Finset (List Char)) := by decide
    exact save_core_all_known dumpsA none _ _ h
  · decide

/-- C2 (amended): a batch in which every record's canonical ID is already
in the Known-ID Set yields an appended count of 0, leaves the known set
unmodified and leaves the store file unchanged provided it is empty or
already newline-terminated; a non-empty file lacking a final newline
receives exactly one appended newline byte. -/
theorem c2_all_known_noop (dumps : Record → List Char)
    (new_dict : List (List Char × Record)) (file : List Char)
    (known : Finset (List Char))
    (h : ∀ p ∈ new_dict, normalize_arxiv_id p.2.id ∈ known) :
    save_metadata_files dumps none new_dict file known =
      .ok { file := ensureTrailingNewline file, appended := [], known := known,
            new_entries := 0 } ∧
    (file = [] ∨ file.getLast? = some '\n' → ensureTrailingNewline file = file) ∧
    (file ≠ [] → file.getLast? ≠ some '\n' →
      ensureTrailingNewline file = file ++ ['\n']) := by
  refine ⟨save_core_all_known dumps none new_dict _ h, ?_, ?_⟩
  · intro hf
    rcases hf with hf | hf
    · simp [ensureTrailingNewline, hf]
    · simp [ensureTrailingNewline, hf]
  · intro h1 h2
    simp [ensureTrailingNewline, h1, h2]

/-- Witness for `c2_all_known_noop`. -/
theorem c2_all_known_noop_witness :
    save_metadata_files dumpsA none [("1".data, recA)] "x\n".data {"1".data} =
      .ok { file := ensureTrailingNewline "x\n".data, appended := [],
            known := {"1".data}, new_entries := 0 } ∧
    ("x\n".data = [] ∨ "x\n".data.getLast? = some '\n' →
      ensureTrailingNewline "x\n".data = "x\n".data) ∧
    ("x\n".data ≠ [] → "x\n".data.getLast? ≠ some '\n' →
      ensureTrailingNewline "x\n".data = "x\n".data ++ ['\n']) :=
  c2_all_known_noop dumpsA [("1".data, recA)] "x\n".data {"1".data} (by decide)

/-! ## C3 -/

/-- C3, counterexample.  The claim asserts that an I/O failure while
appending is fatal to the run — the fetch loop does not continue past
it.  In the source the per-batch save is wrapped in `try/except` (lines
324-347) whose handler only logs, so the loop continues: here a save
whose very first write fails produces a propagated error out of
`save_metadata_files`, after which the loop's control is
`continueLoop`, not a break or a re-raise. -/
theorem c3_counterexample :
    save_metadata_files dumpsA (some 0) [("1".data, recA)] [] ∅ =
      .error { file := [], appended := [], known := ∅, new_entries := 0 } ∧
    save_block_control
      (save_metadata_files dumpsA (some 0) [("1".data, recA)] [] ∅) =
      .continueLoop ∧
    FetchControl.continueLoop ≠ FetchControl.raiseErr ∧
    FetchControl.continueLoop ≠ FetchControl.breakLoop := by
  refine ⟨by rfl, ?_, by decide, by decide⟩
  have h : save_metadata_files dumpsA (some 0) [("1".data, recA)] [] ∅ =
      .error { file := [], appended := [], known := ∅, new_entries := 0 } := by rfl
  rw [h]
  rfl

/-- C3 (amended): an I/O failure on the `n`-th append aborts the batch and
propagates out of `save_metadata_files`; the records appended before the
failure remain in the file (which consists of the repaired prior content
followed by exactly the lines of the successfully appended records — no
rollback) and the counter equals the number of flushed records; the
fetch loop, however, catches the propagated error, logs it, and
continues with the next page, so the failure is not fatal to the run. -/
theorem c3_store_failure (dumps : Record → List Char) (n : Nat)
    (new_dict : List (List Char × Record)) (file : List Char)
    (known : Finset (List Char)) (st' : SaveState)
    (h : save_metadata_files dumps (some n) new_dict file known = .error st') :
    st'.file = ensureTrailingNewline file ++
      (st'.appended.map fun r => dumps r ++ ['\n']).flatten ∧
    st'.new_entries = st'.appended.length ∧
    st'.new_entries = n ∧
    save_block_control
      (save_metadata_files dumps (some n) new_dict file known) =
      .continueLoop := by
  obtain ⟨Δ, ha, hfile, hn, -, -, -⟩ :=
    save_core_spec dumps (some n) new_dict _ st' (Or.inr h)
  have hfa := save_core_error_failAt dumps (some n) new_dict _ st' h
  simp only at ha hfile hn
  have hΔ : st'.appended = Δ := by simpa using ha
  refine ⟨?_, ?_, ?_, ?_⟩
  · rw [hΔ]
    simpa using hfile
  · rw [hΔ]
    simpa using hn
  · simpa using hfa.symm
  · rw [h]
    rfl

/-- Witness for `c3_store_failure`. -/
theorem c3_store_failure_witness :
    ({ file := "1\n".data, appended := [recA], known := {"1".data},
       new_entries := 1 } : SaveState).file =
      ensureTrailingNewline [] ++
        (([recA].map fun r => dumpsA r ++ ['\n'])).flatten ∧
    (1 : Nat) = [recA].length ∧ (1 : Nat) = 1 ∧
    save_block_control
      (save_metadata_files dumpsA (some 1) [("1".data, recA), ("2".data, recB)] [] ∅) =
      .continueLoop := by
  have h := c3_store_failure dumpsA 1 [("1".data, recA), ("2".data, recB)] [] ∅
    { file := "1\n".data, appended := [recA], known := {"1".data}, new_entries := 1 }
    (by rfl)
  exact ⟨h.1, h.2.1, h.2.2.1, h.2.2.2⟩

/-! ## C4 -/

/-- C4, counterexample.  The claim asserts that exhausting the five 503
retries propagates as a fatal error for the fetch call.  The inner loop
does raise after the backoffs `[10, 20, 30, 40]`, but the outer handler
(lines 349-354) catches exactly the 503 case, sleeps 10 s and
`continue`s the page loop — the raised exhaustion is not fatal. -/
theorem c4_counterexample :
    retryFetch all503 0 0 [] = .raised (.httpError 503) 5 [10, 20, 30, 40] ∧
    outerHandle (retryFetch all503 0 0 []) = .retryPage ∧
    OuterAction.retryPage ≠ OuterAction.breakLoop := by
  have h : retryFetch all503 0 0 [] = .raised (.httpError 503) 5 [10, 20, 30, 40] := by
    simp [retryFetch, max_retries, all503]
  refine ⟨h, ?_, by decide⟩
  rw [h]
  rfl

/-- C4 (amended): a page request failing with persistent 503 is retried
with backoffs 10 s x retry count; the counter reaches the ceiling of 5
after 5 `urlopen` calls and the exhaustion raises out of the inner loop,
where the outer page handler catches it and retries the page
(`continue`) instead of failing the fetch call; a non-503 HTTP failure
raises immediately (one call, no backoff) and breaks the loop for this
query; persistent non-HTTP failures back off 5 s x retry count, raise at
the same ceiling, and break the loop for this query. -/
theorem c4_retry_backoff (attempt attemptH attemptO : Nat → AttemptResult)
    (code : Nat) (h503 : ∀ k, attempt k = .httpError 503) (hc : code ≠ 503)
    (hH : ∀ k, attemptH k = .httpError code)
    (hO : ∀ k, attemptO k = .otherError) :
    (retryFetch attempt 0 0 [] = .raised (.httpError 503) 5 [10, 20, 30, 40] ∧
      outerHandle (retryFetch attempt 0 0 []) = .retryPage) ∧
    (retryFetch attemptH 0 0 [] = .raised (.httpError code) 1 [] ∧
      outerHandle (retryFetch attemptH 0 0 []) = .breakLoop) ∧
    (retryFetch attemptO 0 0 [] = .raised .otherError 5 [5, 10, 15, 20] ∧
      outerHandle (retryFetch attemptO 0 0 []) = .breakLoop) := by
  have h1 : retryFetch attempt 0 0 [] = .raised (.httpError 503) 5 [10, 20, 30, 40] := by
    simp [retryFetch, max_retries, h503]
  have h2 : retryFetch attemptH 0 0 [] = .raised (.httpError code) 1 [] := by
    simp [retryFetch, max_retries, hH, hc]
  have h3 : retryFetch attemptO 0 0 [] = .raised .otherError 5 [5, 10, 15, 20] := by
    simp [retryFetch, max_retries, hO]
  refine ⟨⟨h1, ?_⟩, ⟨h2, ?_⟩, ⟨h3, ?_⟩⟩
  · rw [h1]; rfl
  · rw [h2]
    simp [outerHandle, hc]
  · rw [h3]; rfl

/-- Witness for `c4_retry_backoff`. -/
theorem c4_retry_backoff_witness :
    (retryFetch all503 0 0 [] = .raised (.httpError 503) 5 [10, 20, 30, 40] ∧
      outerHandle (retryFetch all503 0 0 []) = .retryPage) ∧
    (retryFetch all404 0 0 [] = .raised (.httpError 404) 1 [] ∧
      outerHandle (retryFetch all404 0 0 []) = .breakLoop) ∧
    (retryFetch allOther 0 0 [] = .raised .otherError 5 [5, 10, 15, 20] ∧
      outerHandle (retryFetch allOther 0 0 []) = .breakLoop) :=
  c4_retry_backoff all503 all404 allOther 404
    (fun _ => rfl) (by decide) (fun _ => rfl) (fun _ => rfl)

/-! ## C5 -/

/-- C5, counterexample.  The claim asserts `start` is advanced only for
non-empty pages.  Starting from `start = 0`, streak `0`, an empty page
(`entry_count = 0`) increments the streak without breaking — and still
advances `start` to 100, because the source places `start +=
batch_size` after the `if`/`else` of lines 308-317. -/
theorem c5_counterexample :
    pageStep { start := 0, empty_page_count := 0 } 0 =
      ({ start := 100, empty_page_count := 1 }, false) ∧
    (100 : Nat) ≠ 0 := by decide

/-- C5 (amended): a page with zero real entries increments the
consecutive-empty-page streak, and the loop breaks — without touching
`start` — exactly when the incremented streak reaches 3; a non-empty
page resets the streak to zero; in every non-breaking iteration,
empty-page ones included, `start` advances by the page size 100. -/
theorem c5_page_step (st : PageState) (n : Nat) :
    (n ≠ 0 → pageStep st n =
      ({ start := st.start + batch_size, empty_page_count := 0 }, false)) ∧
    (pageStep st 0).1.empty_page_count = st.empty_page_count + 1 ∧
    ((pageStep st 0).2 = true ↔ max_empty_pages ≤ st.empty_page_count + 1) ∧
    ((pageStep st 0).2 = true → (pageStep st 0).1.start = st.start) ∧
    ((pageStep st 0).2 = false →
      (pageStep st 0).1.start = st.start + batch_size) := by
  refine ⟨fun hn => by simp [pageStep, hn], ?_, ?_, ?_, ?_⟩ <;>
    by_cases h : max_empty_pages ≤ st.empty_page_count + 1 <;>
      simp [pageStep, h]

/-- Witness for `c5_page_step`. -/
theorem c5_page_step_witness :
    pageStep { start := 5, empty_page_count := 1 } 7 =
      ({ start := 5 + batch_size, empty_page_count := 0 }, false) :=
  (c5_page_step { start := 5, empty_page_count := 1 } 7).1 (by decide)

/-! ## C1 -/

/-- C1: the store-uniqueness invariant.  For any batch handed to
`save_metadata_files`, provided the known set covers the canonical ids
of every record already in the union of the store files (`store`) and
those canonical ids are pairwise distinct, then: every appended record's
canonical id (recomputed from its own `id` field) was absent from the
known set at the write decision, the known set after the call is the old
set plus exactly the appended canonical ids (each added at its append),
and the union of the store files extended by the appended records still
has pairwise-distinct canonical ids — hence pairwise-distinct `id`
fields. -/
theorem c1_store_uniqueness (dumps : Record → List Char)
    (new_dict : List (List Char × Record)) (file : List Char)
    (store : List Record) (known : Finset (List Char)) (st' : SaveState)
    (hsub : ∀ r ∈ store, normalize_arxiv_id r.id ∈ known)
    (hnd : (store.map fun r => normalize_arxiv_id r.id).Nodup)
    (h : save_metadata_files dumps none new_dict file known = .ok st') :
    (∀ r ∈ st'.appended, normalize_arxiv_id r.id ∉ known) ∧
    st'.known = known ∪
      (st'.appended.map fun r => normalize_arxiv_id r.id).toFinset ∧
    ((store ++ st'.appended).map fun r => normalize_arxiv_id r.id).Nodup ∧
    ((store ++ st'.appended).map Record.id).Nodup := by
  obtain ⟨Δ, ha, -, -, hkn, hndΔ, hmem⟩ :=
    save_core_spec dumps none new_dict _ st' (Or.inl h)
  simp only [List.nil_append] at ha
  subst ha
  simp only at hkn hmem
  have hnodup : ((store ++ st'.appended).map
      fun r => normalize_arxiv_id r.id).Nodup := by
    rw [List.map_append]
    rw [List.nodup_append]
    refine ⟨hnd, hndΔ, ?_⟩
    intro a hastore hadelta
    obtain ⟨r, hr, rfl⟩ := List.mem_map.mp hastore
    obtain ⟨r', hr', he⟩ := List.mem_map.mp hadelta
    exact hmem r' hr' (he ▸ hsub r hr)
  refine ⟨hmem, hkn, hnodup, ?_⟩
  have : ((store ++ st'.appended).map fun r => normalize_arxiv_id r.id) =
      ((store ++ st'.appended).map Record.id).map normalize_arxiv_id := by
    rw [List.map_map]
    rfl
  rw [this] at hnodup
  exact hnodup.of_map normalize_arxiv_id

/-- Witness for `c1_store_uniqueness`. -/
theorem c1_store_uniqueness_witness :
    (∀ r ∈ [recB], normalize_arxiv_id r.id ∉ ({"1".data} : Finset (List Char))) ∧
    ({"2".data, "1".data} : Finset (List Char)) = {"1".data} ∪
      (([recB]).map fun r => normalize_arxiv_id r.id).toFinset ∧
    (([recA] ++ [recB]).map fun r => normalize_arxiv_id r.id).Nodup ∧
    (([recA] ++ [recB]).map Record.id).Nodup :=
  c1_store_uniqueness dumpsA [("2".data, recB)] [] [recA] {"1".data}
    { file := "2\n".data, appended := [recB], known := {"2".data, "1".data},
      new_entries := 1 }
    (by decide) (by decide) (by rfl)

/-! ## C7 -/

theorem loadFile_foldl_eq (parse : List Char → Option (Option (List Char))) :
    ∀ (lines : List (List Char)) (acc : Finset (List Char)),
    lines.foldl (loadLineStep parse) acc =
      acc ∪ ((lines.filterMap (parseLineId parse)).map
        normalize_arxiv_id).toFinset := by
  intro lines
  induction lines with
  | nil => intro acc; simp
  | cons l ls ih =>
    intro acc
    simp only [List.foldl_cons, List.filterMap_cons]
    by_cases h0 : pyStrip l = []
    · have hs : loadLineStep parse acc l = acc := by
        simp [loadLineStep, h0]
      have hi : parseLineId parse l = none := by
        simp [parseLineId, h0]
      rw [hs, hi, ih acc]
    · rcases hp : parse (pyStrip l) with - | io
      · have hs : loadLineStep parse acc l = acc := by
          simp [loadLineStep, h0, hp]
        have hi : parseLineId parse l = none := by
          simp [parseLineId, h0, hp]
        rw [hs, hi, ih acc]
      · rcases io with - | i
        · have hs : loadLineStep parse acc l = acc := by
            simp [loadLineStep, h0, hp]
          have hi : parseLineId parse l = none := by
            simp [parseLineId, h0, hp]
          rw [hs, hi, ih acc]
        · have hs : loadLineStep parse acc l =
              insert (normalize_arxiv_id i) acc := by
            simp [loadLineStep, h0, hp]
          have hi : parseLineId parse l = some i := by
            simp [parseLineId, h0, hp]
          rw [hs, hi, ih (insert (normalize_arxiv_id i) acc)]
          rw [List.map_cons, List.toFinset_cons, Finset.insert_union,
            Finset.union_insert]

theorem loadFile_eq_parseableIds (parse : List Char → Option (Option (List Char)))
    (content : List Char) :
    loadFile parse content =
      ((parseableIds parse content).map normalize_arxiv_id).toFinset := by
  have := loadFile_foldl_eq parse (pySplit ['\n'] content) ∅
  simpa [loadFile, parseableIds] using this

/-- C7: a store directory holding exactly two dated store files, whose
6-digit period suffixes are at most the current period, is loaded as the
union of the canonical IDs of the parseable records of the two files,
and the result does not depend on the order in which the directory
listing presents them. -/
theorem c7_loader_union (parse : List Char → Option (Option (List Char)))
    (n1 n2 c1 c2 s1 s2 current : List Char)
    (h1 : matchStore n1 = some (some s1)) (h2 : matchStore n2 = some (some s2))
    (hle1 : pyStrLe s1 current = true) (hle2 : pyStrLe s2 current = true) :
    load_existing_metadata_files parse false current [(n1, c1), (n2, c2)] =
      ((parseableIds parse c1).map normalize_arxiv_id).toFinset ∪
        ((parseableIds parse c2).map normalize_arxiv_id).toFinset ∧
    load_existing_metadata_files parse false current [(n1, c1), (n2, c2)] =
      load_existing_metadata_files parse false current [(n2, c2), (n1, c1)] := by
  have e1 : load_existing_metadata_files parse false current [(n1, c1), (n2, c2)] =
      loadFile parse c1 ∪ loadFile parse c2 := by
    simp [load_existing_metadata_files, h1, h2, hle1, hle2]
  have e2 : load_existing_metadata_files parse false current [(n2, c2), (n1, c1)] =
      loadFile parse c2 ∪ loadFile parse c1 := by
    simp [load_existing_metadata_files, h1, h2, hle1, hle2]
  constructor
  · rw [e1, loadFile_eq_parseableIds, loadFile_eq_parseableIds]
  · rw [e1, e2, Finset.union_comm]

/-- Witness for `c7_loader_union`. -/
theorem c7_loader_union_witness :
    load_existing_metadata_files parseW false "202509".data
      [("arxiv-metadata-oai-snapshot-202507.json".data, "A\n".data),
       ("arxiv-metadata-oai-snapshot-202508.json".data, "B\n".data)] =
      ((parseableIds parseW "A\n".data).map normalize_arxiv_id).toFinset ∪
        ((parseableIds parseW "B\n".data).map normalize_arxiv_id).toFinset ∧
    load_existing_metadata_files parseW false "202509".data
      [("arxiv-metadata-oai-snapshot-202507.json".data, "A\n".data),
       ("arxiv-metadata-oai-snapshot-202508.json".data, "B\n".data)] =
      load_existing_metadata_files parseW false "202509".data
        [("arxiv-metadata-oai-snapshot-202508.json".data, "B\n".data),
         ("arxiv-metadata-oai-snapshot-202507.json".data, "A\n".data)] :=
  c7_loader_union parseW _ _ _ _ "202507".data "202508".data "202509".data
    (by decide) (by decide) (by decide) (by decide)

/-! ## C6 -/

theorem processEntries_cons (e : RawEntry) (rest : List RawEntry) (m : ContentMap) :
    processEntries (e :: rest) m = processEntries rest (processEntry m e) := rfl

theorem processEntry_shape (m : ContentMap) (e : RawEntry) :
    processEntry m e = m ∨
    ∃ eid t, e.entry_id = some eid ∧ e.title = some t ∧
      entryCanon? e = some (fetchCanon eid) ∧
      cmContains m (fetchCanon eid) = false ∧
      processEntry m e =
        m ++ [(fetchCanon eid, buildRecord e eid t (fetchCanon eid))] := by
  by_cases hm : isMetaEntry e = true
  · left
    simp [processEntry, hm]
  · rcases he : e.entry_id with - | eid
    · left
      simp [processEntry, hm, he]
    · rcases ht : e.title with - | t
      · left
        simp [processEntry, hm, he, ht]
      · by_cases hc : cmContains m (fetchCanon eid) = true
        · left
          simp [processEntry, hm, he, ht, hc]
        · right
          refine ⟨eid, t, rfl, rfl, ?_, by simpa using hc, ?_⟩
          · simp [entryCanon?, hm, he, ht]
          · simp [processEntry, hm, he, ht, hc]

theorem entryCanon?_eq_some (e : RawEntry) (c : List Char)
    (h : entryCanon? e = some c) :
    isMetaEntry e = false ∧
    ∃ eid t, e.entry_id = some eid ∧ e.title = some t ∧ c = fetchCanon eid := by
  by_cases hm : isMetaEntry e = true
  · simp [entryCanon?, hm] at h
  · rcases he : e.entry_id with - | eid
    · simp [entryCanon?, hm, he] at h
    · rcases ht : e.title with - | t
      · simp [entryCanon?, hm, he, ht] at h
      · simp [entryCanon?, hm, he, ht] at h
        exact ⟨by simpa using hm, eid, t, rfl, rfl, h.symm⟩

theorem processEntries_stable (es : List RawEntry) :
    ∀ (m : ContentMap) (c : List Char), cmContains m c = true →
    cmContains (processEntries es m) c = true ∧
    cmLookup (processEntries es m) c = cmLookup m c ∧
    (processEntries es m).countP (fun p => decide (p.1 = c)) =
      m.countP (fun p => decide (p.1 = c)) := by
  induction es with
  | nil => intro m c h; exact ⟨h, rfl, rfl⟩
  | cons e rest ih =>
    intro m c h
    rw [processEntries_cons]
    rcases processEntry_shape m e with hs | ⟨eid, t, -, -, -, hnc, hs⟩
    · rw [hs]
      exact ih m c h
    · have hkc : ¬(fetchCanon eid = c) := by
        intro he
        rw [he, h] at hnc
        cases hnc
      have h1 : cmContains (m ++ [(fetchCanon eid,
          buildRecord e eid t (fetchCanon eid))]) c = true := by
        simp only [cmContains, List.any_append]
        simp only [cmContains] at h
        rw [h]
        rfl
      rw [hs]
      obtain ⟨a, b, cnt⟩ := ih _ c h1
      refine ⟨a, b.trans ?_, cnt.trans ?_⟩
      · simp only [cmLookup, List.find?_append]
        rcases hf : m.find? (fun p => p.1 == c) with - | v
        · exfalso
          simp only [cmContains, List.any_eq_true] at h
          obtain ⟨x, hx, hpx⟩ := h
          rw [List.find?_eq_none] at hf
          exact hf x hx hpx
        · rw [hf]
          rfl
      · simp only [List.countP_append]
        have hz : List.countP (fun p => decide (p.1 = c))
            [(fetchCanon eid, buildRecord e eid t (fetchCanon eid))] = 0 := by
          simp [hkc]
        omega

theorem processEntries_found (es : List RawEntry) :
    ∀ (m : ContentMap) (c : List Char) (e : RawEntry),
    cmContains m c = false →
    m.countP (fun p => decide (p.1 = c)) = 0 →
    es.find? (fun x => decide (entryCanon? x = some c)) = some e →
    ∃ eid t, e.entry_id = some eid ∧ e.title = some t ∧ c = fetchCanon eid ∧
      cmLookup (processEntries es m) c = some (buildRecord e eid t c) ∧
      (processEntries es m).countP (fun p => decide (p.1 = c)) = 1 := by
  induction es with
  | nil =>
    intro m c e h hcnt hf
    simp at hf
  | cons e' rest ih =>
    intro m c e h hcnt hf
    by_cases hp : entryCanon? e' = some c
    · rw [List.find?_cons_of_pos _ (by simpa using hp)] at hf
      have hee : e' = e := by injection hf
      obtain ⟨hm, eid, t, heid, ht, hc⟩ := entryCanon?_eq_some e' c hp
      have hccan : cmContains m (fetchCanon eid) = false := hc ▸ h
      have hstep : processEntry m e' =
          m ++ [(fetchCanon eid, buildRecord e' eid t (fetchCanon eid))] := by
        simp [processEntry, hm, heid, ht, hccan]
      have h1 : cmContains (m ++ [(fetchCanon eid,
          buildRecord e' eid t (fetchCanon eid))]) c = true := by
        simp only [cmContains, List.any_append, List.any_cons, List.any_nil]
        have hq : ((fetchCanon eid, buildRecord e' eid t (fetchCanon eid)).1
            == c) = true := by
          simp [hc]
        rw [hq]
        simp
      rw [processEntries_cons, hstep]
      obtain ⟨-, hb, hcnt'⟩ := processEntries_stable rest _ c h1
      subst hee
      refine ⟨eid, t, heid, ht, hc, ?_, ?_⟩
      · rw [hb]
        simp only [cmLookup, List.find?_append]
        have hfm : m.find? (fun p => p.1 == c) = none := by
          rw [List.find?_eq_none]
          intro x hx hpx
          have : m.any (fun p => p.1 == c) = true := List.any_eq_true.mpr ⟨x, hx, hpx⟩
          simp only [cmContains] at h
          rw [h] at this
          cases this
        rw [hfm]
        have hfx : List.find? (fun p => p.1 == c)
            [(fetchCanon eid, buildRecord e' eid t (fetchCanon eid))] =
            some (fetchCanon eid, buildRecord e' eid t (fetchCanon eid)) := by
          apply List.find?_cons_of_pos
          simp [hc]
        rw [hfx, hc]
        rfl
      · rw [hcnt']
        simp only [List.countP_append, hcnt]
        simp [hc]
    · rw [List.find?_cons_of_neg _ (by simpa using hp)] at hf
      rcases processEntry_shape m e' with hs | ⟨eid, t, -, -, hcan, hnc, hs⟩
      · rw [processEntries_cons, hs]
        exact ih m c e h hcnt hf
      · have hkc : ¬(fetchCanon eid = c) := by
          intro hkce
          rw [hkce] at hcan
          exact hp hcan
        have h2 : cmContains (m ++ [(fetchCanon eid,
            buildRecord e' eid t (fetchCanon eid))]) c = false := by
          simp only [cmContains, List.any_append, List.any_cons, List.any_nil]
          simp only [cmContains] at h
          rw [h]
          simp [hkc]
        have h3 : (m ++ [(fetchCanon eid,
            buildRecord e' eid t (fetchCanon eid))]).countP
            (fun p => decide (p.1 = c)) = 0 := by
          simp only [List.countP_append, hcnt]
          simp [hkc]
        rw [processEntries_cons, hs]
        exact ih _ c e h2 h3 hf

/-- C6: when two or more entries of a fetch share the same derived
canonical ID, the accumulated `full_content` holds exactly one record
under that ID, and it is the one built from the first such entry (later
duplicates are skipped by the `paper_id in full_content` test before
reaching the writer, which only ever sees `full_content` items). -/
theorem c6_first_wins (es : List RawEntry) (c : List Char)
    (h2 : 2 ≤ es.countP (fun x => decide (entryCanon? x = some c))) :
    (processEntries es []).countP (fun p => decide (p.1 = c)) = 1 ∧
    ∃ e eid t, es.find? (fun x => decide (entryCanon? x = some c)) = some e ∧
      e.entry_id = some eid ∧ e.title = some t ∧ c = fetchCanon eid ∧
      cmLookup (processEntries es []) c = some (buildRecord e eid t c) := by
  have hpos : 0 < es.countP (fun x => decide (entryCanon? x = some c)) := by omega
  have hex := List.countP_pos_iff.mp hpos
  have hsome : (es.find? (fun x => decide (entryCanon? x = some c))).isSome :=
    List.find?_isSome.mpr (by
      obtain ⟨a, ha, hpa⟩ := hex
      exact ⟨a, ha, hpa⟩)
  obtain ⟨e, he⟩ := Option.isSome_iff_exists.mp hsome
  obtain ⟨eid, t, heid, ht, hc, hlook, hcnt⟩ :=
    processEntries_found es [] c e rfl rfl he
  exact ⟨hcnt, e, eid, t, he, heid, ht, hc, hlook⟩

/-- Witness for `c6_first_wins`: two concrete entries deriving the same
canonical id `7`. -/
theorem c6_first_wins_witness :
    (processEntries [entryA, entryB] []).countP
      (fun p => decide (p.1 = "7".data)) = 1 ∧
    ∃ e eid t, [entryA, entryB].find?
        (fun x => decide (entryCanon? x = some "7".data)) = some e ∧
      e.entry_id = some eid ∧ e.title = some t ∧ "7".data = fetchCanon eid ∧
      cmLookup (processEntries [entryA, entryB] []) "7".data =
        some (buildRecord e eid t "7".data) :=
  c6_first_wins [entryA, entryB] "7".data (by decide)

/-! ## String lemmas for the ID Normalizer -/

theorem pyIn_iff (sub : List Char) : ∀ l, pyIn sub l = true ↔ sub <:+: l := by
  intro l
  induction l with
  | nil =>
    simp [pyIn, List.isEmpty_iff, List.infix_nil]
  | cons c rest ih =>
    simp [pyIn, ih, List.infix_cons_iff, List.isPrefixOf_iff_prefix]

theorem infix_append_cases {p s t : List Char} (h : p <:+: s ++ t) :
    p <:+: s ∨ ∃ c ∈ t, p.getLast? = some c := by
  obtain ⟨u, w, huw⟩ := h
  rcases le_or_lt t.length w.length with hl | hl
  · left
    have hw : w <:+ s ++ t := ⟨u ++ p, huw⟩
    have ht : t <:+ s ++ t := ⟨s, rfl⟩
    have htw : t <:+ w := List.suffix_of_suffix_length_le ht hw hl
    obtain ⟨w₀, rfl⟩ := htw
    refine ⟨u, w₀, ?_⟩
    have h2 : (u ++ p ++ w₀) ++ t = s ++ t := by
      simpa [List.append_assoc] using huw
    exact List.append_cancel_right h2
  · rcases p with - | ⟨p0, pr⟩
    · left
      exact List.nil_infix
    · right
      have hw : w <:+ s ++ t := ⟨u ++ (p0 :: pr), huw⟩
      have ht : t <:+ s ++ t := ⟨s, rfl⟩
      have hwt : w <:+ t := List.suffix_of_suffix_length_le hw ht (Nat.le_of_lt hl)
      obtain ⟨t₀, rfl⟩ := hwt
      have ht0 : t₀ ≠ [] := by
        intro h0
        subst h0
        simp at hl
      have hup : u ++ (p0 :: pr) = s ++ t₀ := by
        have h2 : (u ++ (p0 :: pr)) ++ w = (s ++ t₀) ++ w := by
          simpa [List.append_assoc] using huw
        exact List.append_cancel_right h2
      obtain ⟨c, hc⟩ :=
        Option.isSome_iff_exists.mp (List.getLast?_isSome.mpr ht0)
      obtain ⟨x, hx⟩ := Option.isSome_iff_exists.mp
        (List.getLast?_isSome.mpr (List.cons_ne_nil p0 pr))
      have e1 : (u ++ (p0 :: pr)).getLast? = some x := by
        rw [List.getLast?_append, hx]
        rfl
      have e2 : (s ++ t₀).getLast? = some c := by
        rw [List.getLast?_append, hc]
        rfl
      rw [hup, e2] at e1
      have hxc : c = x := by
        injection e1
      refine ⟨c, List.mem_append_left w
        (List.mem_of_mem_getLast? (Option.mem_def.mpr hc)), ?_⟩
      rw [hx, hxc]

theorem pyIn_append_digits (p s ds : List Char) (g : Char)
    (hg : p.getLast? = some g) (hgv : g ≠ 'v') (hgd : g.isDigit = false)
    (hd : ∀ c ∈ ds, c.isDigit = true) :
    pyIn p (s ++ 'v' :: ds) = pyIn p s := by
  cases hb : pyIn p s with
  | true =>
    have hi := (pyIn_iff p s).mp hb
    exact (pyIn_iff p _).mpr (hi.trans ⟨[], 'v' :: ds, by simp⟩)
  | false =>
    cases hb2 : pyIn p (s ++ 'v' :: ds) with
    | false => rfl
    | true =>
      exfalso
      rcases infix_append_cases ((pyIn_iff p _).mp hb2) with hins | ⟨c, hcmem, hclast⟩
      · rw [(pyIn_iff p s).mpr hins] at hb
        cases hb
      · rw [hg] at hclast
        have hgc : g = c := by injection hclast
        rcases List.mem_cons.mp hcmem with rfl | hcds
        · exact hgv hgc
        · rw [hgc] at hgd
          rw [hd c hcds] at hgd
          cases hgd

theorem stripVer_append_v (s ds : List Char) :
    stripVer (s ++ 'v' :: ds) = stripVer s := by
  unfold stripVer
  rcases h : s.findIdx? (fun c => c == 'v') with - | i
  · rw [List.findIdx?_append, h]
    have h0 : (('v' :: ds).findIdx? (fun c => c == 'v')) = some 0 := by
      simp [List.findIdx?_cons]
    rw [h0]
    simp only [Option.none_or, Option.map_some']
    rw [Nat.zero_add]
    exact List.take_left s ('v' :: ds)
  · rw [List.findIdx?_append, h]
    simp only [Option.or_some]
    obtain ⟨hlt, -⟩ := List.findIdx?_eq_some_iff_getElem.mp h
    rw [List.take_append_eq_append_take]
    have hz : i - s.length = 0 := by omega
    rw [hz]
    simp

theorem stripVer_of_not_mem {l : List Char} (h : 'v' ∉ l) : stripVer l = l := by
  unfold stripVer
  have hn : l.findIdx? (fun c => c == 'v') = none := by
    rw [List.findIdx?_eq_none_iff]
    intro x hx
    exact beq_eq_false_iff_ne.mpr fun he => h (he ▸ hx)
  rw [hn]

theorem not_v_mem_stripVer (l : List Char) : 'v' ∉ stripVer l := by
  unfold stripVer
  rcases h : l.findIdx? (fun c => c == 'v') with - | i
  · rw [List.findIdx?_eq_none_iff] at h
    intro hv
    have := h 'v' hv
    simp at this
  · obtain ⟨hlt, -, hbefore⟩ := List.findIdx?_eq_some_iff_getElem.mp h
    intro hv
    obtain ⟨j, hj, hje⟩ := List.mem_iff_getElem.mp hv
    have hj2 : j < i := by
      have := hj
      simp only [List.length_take] at this
      omega
    have := hbefore j hj2
    rw [List.getElem_take] at hje
    rw [hje] at this
    simp at this

/-! ## Structure of pySplit -/

theorem consHead_ne_nil (c : Char) (L : List (List Char)) : consHead c L ≠ [] := by
  cases L <;> simp [consHead]

theorem pySplit_ne_nil (sep l : List Char) : pySplit sep l ≠ [] := by
  cases l with
  | nil =>
    rw [pySplit]
    simp
  | cons c rest =>
    rw [pySplit]
    by_cases hb : sep.isPrefixOf (c :: rest) = true
    · rw [if_pos hb]
      simp
    · rw [if_neg hb]
      exact consHead_ne_nil c _

theorem appendLast_ne_nil (t : List Char) (L : List (List Char)) :
    appendLast t L ≠ [] := by
  match L with
  | [] => simp [appendLast]
  | [x] => simp [appendLast]
  | x :: y :: ys => simp [appendLast]

theorem appendLast_cons₂ (t x : List Char) (L : List (List Char)) (hL : L ≠ []) :
    appendLast t (x :: L) = x :: appendLast t L := by
  match L with
  | [] => exact absurd rfl hL
  | y :: ys => rfl

theorem consHead_appendLast (c : Char) (t : List Char) (L : List (List Char))
    (hL : L ≠ []) : consHead c (appendLast t L) = appendLast t (consHead c L) := by
  match L with
  | [] => exact absurd rfl hL
  | [x] => rfl
  | x :: y :: ys => rfl

theorem pyLast_appendLast (t : List Char) :
    ∀ L, pyLast (appendLast t L) = pyLast L ++ t := by
  intro L
  induction L with
  | nil => rfl
  | cons x xs ih =>
    cases xs with
    | nil => rfl
    | cons y ys =>
      rw [appendLast_cons₂ t x (y :: ys) (by simp)]
      rcases ha : appendLast t (y :: ys) with - | ⟨z, zs⟩
      · exact absurd ha (appendLast_ne_nil t _)
      · rw [ha] at ih
        simp only [pyLast, List.getLast?_cons_cons] at ih ⊢
        exact ih

theorem pySplit_head_pre_aux (sep : List Char) :
    ∀ (n : Nat) (l : List Char), l.length ≤ n →
    ∀ x xs, pySplit sep l = x :: xs → x <+: l := by
  intro n
  induction n with
  | zero =>
    intro l hl x xs h
    have h0 : l = [] := List.length_eq_zero.mp (Nat.le_zero.mp hl)
    subst h0
    rw [pySplit] at h
    cases h
    exact List.nil_prefix
  | succ n ih =>
    intro l hl x xs h
    cases l with
    | nil =>
      rw [pySplit] at h
      cases h
      exact List.nil_prefix
    | cons c rest =>
      rw [pySplit] at h
      by_cases hb : sep.isPrefixOf (c :: rest) = true
      · rw [if_pos hb] at h
        cases h
        exact List.nil_prefix
      · rw [if_neg hb] at h
        rcases hsr : pySplit sep rest with - | ⟨y, ys⟩
        · exact absurd hsr (pySplit_ne_nil sep rest)
        · rw [hsr] at h
          simp only [consHead] at h
          have hx : x = c :: y := by
            injection h with h1 h2
            exact h1.symm
          subst hx
          have hlen : rest.length ≤ n := by
            simp only [List.length_cons] at hl
            omega
          exact List.cons_prefix_cons.mpr ⟨rfl, ih rest hlen y ys hsr⟩

theorem pySplit_head_pre (sep l x : List Char) (xs : List (List Char))
    (h : pySplit sep l = x :: xs) : x <+: l :=
  pySplit_head_pre_aux sep l.length l le_rfl x xs h

theorem pySplit_no_match (sep : List Char) :
    ∀ t, (∀ u, u <:+ t → sep.isPrefixOf u = false) → pySplit sep t = [t] := by
  intro t
  induction t with
  | nil =>
    intro h
    rw [pySplit]
  | cons c rest ih =>
    intro h
    rw [pySplit]
    have hb : sep.isPrefixOf (c :: rest) = false := h _ (List.suffix_refl _)
    rw [if_neg (by simp [hb])]
    rw [ih (fun u hu => h u (hu.trans (List.suffix_cons c rest)))]
    rfl

theorem pySplit_append_aux (sep t : List Char)
    (ht : ∀ u, u <:+ t → sep.isPrefixOf u = false) :
    ∀ (n : Nat) (s : List Char), s.length ≤ n →
    (∀ u, u <:+ s → sep.isPrefixOf (u ++ t) = true → sep.isPrefixOf u = true) →
    pySplit sep (s ++ t) = appendLast t (pySplit sep s) := by
  intro n
  induction n with
  | zero =>
    intro s hlen hs
    have hs0 : s = [] := List.length_eq_zero.mp (Nat.le_zero.mp hlen)
    subst hs0
    have h2 : pySplit sep [] = [[]] := by rw [pySplit]
    rw [List.nil_append, pySplit_no_match sep t ht, h2]
    rfl
  | succ n ih =>
    intro s hlen hs
    cases s with
    | nil =>
      have h2 : pySplit sep [] = [[]] := by rw [pySplit]
      rw [List.nil_append, pySplit_no_match sep t ht, h2]
      rfl
    | cons c rest =>
      have hcond : sep.isPrefixOf (c :: (rest ++ t)) = sep.isPrefixOf (c :: rest) := by
        cases hb : sep.isPrefixOf (c :: rest) with
        | true =>
          have hp : sep <+: (c :: rest) := List.isPrefixOf_iff_prefix.mp hb
          have hp2 : sep <+: (c :: rest) ++ t := hp.trans (List.prefix_append _ _)
          exact List.isPrefixOf_iff_prefix.mpr hp2
        | false =>
          cases hb2 : sep.isPrefixOf (c :: (rest ++ t)) with
          | false => rfl
          | true =>
            have hcontra := hs (c :: rest) (List.suffix_refl _) hb2
            rw [hcontra] at hb
            cases hb
      rw [List.cons_append, pySplit, pySplit]
      by_cases hb : sep.isPrefixOf (c :: rest) = true
      · rw [if_pos (hcond.trans hb), if_pos hb]
        have hlsep : sep.length - 1 ≤ rest.length := by
          have := (List.isPrefixOf_iff_prefix.mp hb).length_le
          simp only [List.length_cons] at this
          omega
        have hdrop : List.drop (sep.length - 1) (rest ++ t) =
            List.drop (sep.length - 1) rest ++ t := by
          rw [List.drop_append_eq_append_drop]
          have hz : sep.length - 1 - rest.length = 0 := by omega
          rw [hz, List.drop_zero]
        rw [hdrop]
        have hrec := ih (List.drop (sep.length - 1) rest)
          (by
            have := List.length_drop (sep.length - 1) rest
            simp only [List.length_cons] at hlen
            omega)
          (fun u hu hput =>
            hs u (hu.trans ((List.drop_suffix _ rest).trans
              (List.suffix_cons c rest))) hput)
        rw [hrec]
        rcases hps : pySplit sep (List.drop (sep.length - 1) rest) with - | ⟨y, ys⟩
        · exact absurd hps (pySplit_ne_nil sep _)
        · rw [appendLast_cons₂ t [] (y :: ys) (by simp)]
      · have hbf : sep.isPrefixOf (c :: rest) = false := by
          rw [← Bool.not_eq_true]
          exact hb
        rw [if_neg (by simp [hcond, hbf]), if_neg hb]
        have hrec := ih rest
          (by
            simp only [List.length_cons] at hlen
            omega)
          (fun u hu hput => hs u (hu.trans (List.suffix_cons c rest)) hput)
        rw [hrec]
        exact consHead_appendLast c t (pySplit sep rest) (pySplit_ne_nil sep rest)

theorem pySplit_append (sep s t : List Char)
    (hs : ∀ u, u <:+ s → sep.isPrefixOf (u ++ t) = true → sep.isPrefixOf u = true)
    (ht : ∀ u, u <:+ t → sep.isPrefixOf u = false) :
    pySplit sep (s ++ t) = appendLast t (pySplit sep s) :=
  pySplit_append_aux sep t ht s.length s le_rfl hs

theorem pySplit_chunk_aux (sep : List Char) (hsep : sep ≠ []) :
    ∀ (n : Nat) (l : List Char), l.length ≤ n →
    ∀ chunk ∈ pySplit sep l, ¬ sep <:+: chunk := by
  intro n
  induction n with
  | zero =>
    intro l hl chunk hmem hinf
    have h0 : l = [] := List.length_eq_zero.mp (Nat.le_zero.mp hl)
    subst h0
    rw [pySplit] at hmem
    simp only [List.mem_singleton] at hmem
    subst hmem
    exact hsep (List.infix_nil.mp hinf)
  | succ n ih =>
    intro l hl chunk hmem hinf
    cases l with
    | nil =>
      rw [pySplit] at hmem
      simp only [List.mem_singleton] at hmem
      subst hmem
      exact hsep (List.infix_nil.mp hinf)
    | cons c rest =>
      rw [pySplit] at hmem
      by_cases hb : sep.isPrefixOf (c :: rest) = true
      · rw [if_pos hb] at hmem
        rcases List.mem_cons.mp hmem with rfl | hmem2
        · exact hsep (List.infix_nil.mp hinf)
        · have hlend : (List.drop (sep.length - 1) rest).length ≤ n := by
            have := List.length_drop (sep.length - 1) rest
            simp only [List.length_cons] at hl
            omega
          exact ih _ hlend chunk hmem2 hinf
      · rw [if_neg hb] at hmem
        have hlenr : rest.length ≤ n := by
          simp only [List.length_cons] at hl
          omega
        rcases hsr : pySplit sep rest with - | ⟨y, ys⟩
        · exact absurd hsr (pySplit_ne_nil sep rest)
        · rw [hsr] at hmem
          simp only [consHead] at hmem
          rcases List.mem_cons.mp hmem with rfl | hmem2
          · rcases List.infix_cons_iff.mp hinf with hpre | hinf2
            · have hy : y <+: rest := pySplit_head_pre sep rest y ys hsr
              have : sep <+: c :: rest :=
                hpre.trans (List.cons_prefix_cons.mpr ⟨rfl, hy⟩)
              rw [List.isPrefixOf_iff_prefix.mpr this] at hb
              exact hb rfl
            · exact ih rest hlenr y (hsr ▸ List.mem_cons_self y ys) hinf2
          · exact ih rest hlenr chunk
              (hsr ▸ List.mem_cons_of_mem y hmem2) hinf

theorem pySplit_chunk_no_sep (sep l : List Char) (hsep : sep ≠ [])
    (chunk : List Char) (hmem : chunk ∈ pySplit sep l) : ¬ sep <:+: chunk :=
  pySplit_chunk_aux sep hsep l.length l le_rfl chunk hmem

/-! ## Appending a version suffix -/

theorem sep_isPrefixOf_of_append_v (sep ds : List Char) (hv : 'v' ∉ sep)
    (u : List Char) (h : sep.isPrefixOf (u ++ 'v' :: ds) = true) :
    sep.isPrefixOf u = true := by
  have hp : sep <+: u ++ 'v' :: ds := List.isPrefixOf_iff_prefix.mp h
  by_cases hl : sep.length ≤ u.length
  · exact List.isPrefixOf_iff_prefix.mpr
      (List.prefix_of_prefix_length_le hp (List.prefix_append u _) hl)
  · exfalso
    have hu : u <+: sep :=
      List.prefix_of_prefix_length_le (List.prefix_append u _) hp (by omega)
    obtain ⟨r, hr⟩ := hu
    have hrt : r <+: 'v' :: ds := by
      have h2 : u ++ r <+: u ++ 'v' :: ds := by
        rw [hr]
        exact hp
      exact (List.prefix_append_right_inj u).mp h2
    have hrne : r ≠ [] := by
      intro h0
      subst h0
      apply hl
      rw [← hr]
      simp
    rcases r with - | ⟨r0, rr⟩
    · exact hrne rfl
    · have hr0 : r0 = 'v' := (List.cons_prefix_cons.mp hrt).1
      subst hr0
      apply hv
      rw [← hr]
      exact List.mem_append_right u (List.mem_cons_self _ _)

theorem sep_not_prefixOf_suffix_of_v (sep ds : List Char) (h0 : Char)
    (hs0 : sep.head? = some h0) (hh : h0 ≠ 'v') (hhd : h0.isDigit = false)
    (hd : ∀ c ∈ ds, c.isDigit = true) :
    ∀ u, u <:+ 'v' :: ds → sep.isPrefixOf u = false := by
  intro u hu
  cases hb : sep.isPrefixOf u with
  | false => rfl
  | true =>
    exfalso
    have hp : sep <+: u := List.isPrefixOf_iff_prefix.mp hb
    have hmem : h0 ∈ sep := by
      rcases sep with - | ⟨a, as⟩
      · cases hs0
      · have : a = h0 := by
          injection hs0
        subst this
        exact List.mem_cons_self _ _
    have hmu : h0 ∈ 'v' :: ds := hu.subset (hp.subset hmem)
    rcases List.mem_cons.mp hmu with rfl | hds
    · exact hh rfl
    · rw [hd h0 hds] at hhd
      cases hhd

theorem normalize_append_version (s ds : List Char)
    (hd : ∀ c ∈ ds, c.isDigit = true) :
    normalize_arxiv_id (s ++ 'v' :: ds) = normalize_arxiv_id s := by
  have habs : pyIn absPat (s ++ 'v' :: ds) = pyIn absPat s :=
    pyIn_append_digits absPat s ds '/' (by decide) (by decide) (by decide) hd
  have hdom : pyIn domPat (s ++ 'v' :: ds) = pyIn domPat s :=
    pyIn_append_digits domPat s ds 'g' (by decide) (by decide) (by decide) hd
  by_cases hs0 : s = []
  · subst hs0
    rw [List.nil_append] at habs hdom ⊢
    have habs0 : pyIn absPat ('v' :: ds) = false := by
      rw [habs]
      decide
    have hdom0 : pyIn domPat ('v' :: ds) = false := by
      rw [hdom]
      decide
    have hR : normalize_arxiv_id ([] : List Char) = [] := by
      simp [normalize_arxiv_id]
    rw [hR]
    simp only [normalize_arxiv_id]
    rw [if_neg (List.cons_ne_nil 'v' ds), if_neg (by simp [habs0]),
      if_neg (by simp [hdom0])]
    simp [stripVer, List.findIdx?_cons]
  · have hst : s ++ 'v' :: ds ≠ [] := by simp
    simp only [normalize_arxiv_id]
    rw [if_neg hst, if_neg hs0, habs, hdom]
    by_cases h1 : pyIn absPat s = true
    · rw [if_pos h1, if_pos h1]
      have hsplit := pySplit_append absPat s ('v' :: ds)
        (fun u _ hput => sep_isPrefixOf_of_append_v absPat ds (by decide) u hput)
        (sep_not_prefixOf_suffix_of_v absPat ds '/' rfl (by decide) (by decide) hd)
      rw [hsplit, pyLast_appendLast]
      exact stripVer_append_v _ ds
    · rw [if_neg h1, if_neg h1]
      by_cases h2 : pyIn domPat s = true
      · rw [if_pos h2, if_pos h2]
        have hsplit := pySplit_append slashPat s ('v' :: ds)
          (fun u _ hput => sep_isPrefixOf_of_append_v slashPat ds (by decide) u hput)
          (sep_not_prefixOf_suffix_of_v slashPat ds '/' rfl (by decide) (by decide) hd)
        rw [hsplit, pyLast_appendLast]
        exact stripVer_append_v _ ds
      · rw [if_neg h2, if_neg h2]
        exact stripVer_append_v s ds

theorem char_ofNat_digit (m : Nat) (hm : m < 10) :
    (Char.ofNat (48 + m)).isDigit = true := by
  interval_cases m <;> decide

theorem pyStrNat_digits : ∀ (n : Nat), ∀ c ∈ pyStrNat n, c.isDigit = true := by
  intro n
  induction n using Nat.strong_induction_on with
  | _ n ih =>
    rw [pyStrNat]
    by_cases h : n < 10
    · rw [if_pos h]
      intro c hc
      simp only [List.mem_singleton] at hc
      subst hc
      exact char_ofNat_digit n h
    · rw [if_neg h]
      intro c hc
      rcases List.mem_append.mp hc with hc1 | hc2
      · exact ih (n / 10) (Nat.div_lt_self (by omega) (by omega)) c hc1
      · simp only [List.mem_singleton] at hc2
        subst hc2
        exact char_ofNat_digit (n % 10) (Nat.mod_lt n (by omega))

/-! ## C9 -/

/-- C9: appending a version suffix `v` followed by the decimal digits of a
positive integer `N` never changes the normalized result:
`normalize_arxiv_id (id ++ "v" ++ str N) = normalize_arxiv_id id`. -/
theorem c9_version_suffix (arxiv_id : List Char) (N : Nat) (_hN : 0 < N) :
    normalize_arxiv_id (arxiv_id ++ 'v' :: pyStrNat N) =
      normalize_arxiv_id arxiv_id :=
  normalize_append_version arxiv_id (pyStrNat N) (pyStrNat_digits N)

/-- Witness for `c9_version_suffix`. -/
theorem c9_version_suffix_witness :
    normalize_arxiv_id ("2108.09112".data ++ 'v' :: pyStrNat 3) =
      normalize_arxiv_id "2108.09112".data :=
  c9_version_suffix "2108.09112".data 3 (by decide)

/-! ## C8 and C10: fixed points and idempotence of the Normalizer -/

theorem pyIn_eq_false_iff (sub l : List Char) :
    pyIn sub l = false ↔ ¬ sub <:+: l := by
  rw [← pyIn_iff sub l]
  cases pyIn sub l <;> simp

theorem v_not_mem_of_dropTrailing {s : List Char}
    (h : 'v' ∉ dropTrailingDigits s) : 'v' ∉ s := by
  intro hv
  have hv2 : 'v' ∈ s.reverse := List.mem_reverse.mpr hv
  rw [← List.takeWhile_append_dropWhile Char.isDigit s.reverse] at hv2
  rcases List.mem_append.mp hv2 with hta | hdr
  · have := List.mem_takeWhile_imp hta
    simp at this
  · apply h
    exact List.mem_reverse.mpr hdr

theorem normalize_shape (s : List Char) (hs0 : s ≠ []) :
    (pyIn absPat s = true ∧
      normalize_arxiv_id s = stripVer (pyLast (pySplit absPat s))) ∨
    (pyIn absPat s = false ∧ pyIn domPat s = true ∧
      normalize_arxiv_id s = stripVer (pyLast (pySplit slashPat s))) ∨
    (pyIn absPat s = false ∧ pyIn domPat s = false ∧
      normalize_arxiv_id s = stripVer s) := by
  by_cases h1 : pyIn absPat s = true
  · left
    refine ⟨h1, ?_⟩
    simp only [normalize_arxiv_id]
    rw [if_neg hs0, if_pos h1]
  · have h1f : pyIn absPat s = false := by
      rw [← Bool.not_eq_true]
      exact h1
    by_cases h2 : pyIn domPat s = true
    · right
      left
      refine ⟨h1f, h2, ?_⟩
      simp only [normalize_arxiv_id]
      rw [if_neg hs0, if_neg h1, if_pos h2]
    · right
      right
      refine ⟨h1f, by rw [← Bool.not_eq_true]; exact h2, ?_⟩
      simp only [normalize_arxiv_id]
      rw [if_neg hs0, if_neg h1, if_neg h2]

theorem pyLast_mem (L : List (List Char)) (h : L ≠ []) : pyLast L ∈ L := by
  unfold pyLast
  rcases hL : L.getLast? with - | x
  · have := List.getLast?_isSome.mpr h
    rw [hL] at this
    cases this
  · exact List.mem_of_mem_getLast? (Option.mem_def.mpr hL)

theorem stripVer_subset (l : List Char) : stripVer l ⊆ l := by
  unfold stripVer
  rcases l.findIdx? (fun c => c == 'v') with - | i
  · exact fun a ha => ha
  · exact fun a ha => ( List.take_prefix i l).subset ha

theorem not_inf_stripVer (p l : List Char) (h : ¬ p <:+: l) :
    ¬ p <:+: stripVer l := by
  intro hinf
  apply h
  unfold stripVer at hinf
  rcases hf : l.findIdx? (fun c => c == 'v') with - | i
  · rw [hf] at hinf
    exact hinf
  · rw [hf] at hinf
    exact hinf.trans ( List.take_prefix i l).isInfix

/-- C8: an identifier already in canonical form — containing no `/abs/`,
no `arxiv.org`, and no `v` before its trailing digits — is a fixed point
of the Normalizer, and hence normalizing twice equals normalizing once
equals the identifier itself. -/
theorem c8_canonical_fixed (s : List Char)
    (h1 : pyIn absPat s = false) (h2 : pyIn domPat s = false)
    (h3 : 'v' ∉ dropTrailingDigits s) :
    normalize_arxiv_id s = s ∧
    normalize_arxiv_id (normalize_arxiv_id s) = s := by
  have hv : 'v' ∉ s := v_not_mem_of_dropTrailing h3
  have hmain : normalize_arxiv_id s = s := by
    by_cases hs0 : s = []
    · subst hs0
      simp [normalize_arxiv_id]
    · rcases normalize_shape s hs0 with ⟨ha, -⟩ | ⟨-, hb, -⟩ | ⟨-, -, he⟩
      · rw [ha] at h1
        cases h1
      · rw [hb] at h2
        cases h2
      · rw [he]
        exact stripVer_of_not_mem hv
  exact ⟨hmain, by rw [hmain, hmain]⟩

/-- Witness for `c8_canonical_fixed`. -/
theorem c8_canonical_fixed_witness :
    normalize_arxiv_id "2108.09112".data = "2108.09112".data ∧
    normalize_arxiv_id (normalize_arxiv_id "2108.09112".data) =
      "2108.09112".data :=
  c8_canonical_fixed "2108.09112".data (by decide) (by decide) (by decide)

theorem normalize_v_free (s : List Char) : 'v' ∉ normalize_arxiv_id s := by
  by_cases hs0 : s = []
  · subst hs0
    simp [normalize_arxiv_id]
  · rcases normalize_shape s hs0 with ⟨-, he⟩ | ⟨-, -, he⟩ | ⟨-, -, he⟩ <;>
      rw [he] <;> exact not_v_mem_stripVer _

theorem normalize_no_abs (s : List Char) :
    pyIn absPat (normalize_arxiv_id s) = false := by
  by_cases hs0 : s = []
  · subst hs0
    have h0 : normalize_arxiv_id ([] : List Char) = [] := by
      simp [normalize_arxiv_id]
    rw [h0]
    decide
  · rw [pyIn_eq_false_iff]
    rcases normalize_shape s hs0 with ⟨-, he⟩ | ⟨-, -, he⟩ | ⟨h1, -, he⟩
    · rw [he]
      exact not_inf_stripVer _ _ (pySplit_chunk_no_sep absPat s (by decide) _
        (pyLast_mem _ (pySplit_ne_nil absPat s)))
    · rw [he]
      intro hinf
      have hchunk := pySplit_chunk_no_sep slashPat s (by decide) _
        (pyLast_mem _ (pySplit_ne_nil slashPat s))
      apply hchunk
      have hsl : '/' ∈ pyLast (pySplit slashPat s) :=
        stripVer_subset _ (hinf.subset (by decide))
      obtain ⟨l1, l2, hsplit⟩ := List.append_of_mem hsl
      exact ⟨l1, l2, by
        rw [hsplit, List.append_assoc]
        rfl⟩
    · rw [he]
      exact not_inf_stripVer _ _ ((pyIn_eq_false_iff _ _).mp h1)

/-- C10: for every input string, the output of the Normalizer contains no
`v` character and no `/abs/` substring; consequently the Normalizer is
unconditionally idempotent. -/
theorem c10_normalize_idempotent (s : List Char) :
    'v' ∉ normalize_arxiv_id s ∧
    pyIn absPat (normalize_arxiv_id s) = false ∧
    normalize_arxiv_id (normalize_arxiv_id s) = normalize_arxiv_id s := by
  refine ⟨normalize_v_free s, normalize_no_abs s, ?_⟩
  by_cases hr0 : normalize_arxiv_id s = []
  · rw [hr0]
    simp [normalize_arxiv_id]
  · rcases normalize_shape (normalize_arxiv_id s) hr0 with
      ⟨ha, -⟩ | ⟨-, hb, -⟩ | ⟨-, -, he⟩
    · rw [normalize_no_abs s] at ha
      cases ha
    · exfalso
      have hinf := (pyIn_iff domPat _).mp hb
      exact normalize_v_free s (hinf.subset (by decide))
    · rw [he]
      exact stripVer_of_not_mem (normalize_v_free s)
